import Mathlib

/-!
Verification of the dependency / license checker in `src/tools/tidy/src/deps.rs`.

Strings are modelled as `List Char`.  Rust's `&str` operations used by the
program (`split(" ")`, `starts_with`, `find('"')`, `rfind('"')`, byte-range
slicing between quote positions, `contains`, `lines`) are embedded as plain
list functions.  Since `'"'`, `' '` and `'\n'` are one-byte characters and all
slice endpoints produced by the program sit on character boundaries, character
indices coincide with the byte indices used by the Rust code, and byte-wise
lexicographic `Ord` on `&str` coincides with code-point lexicographic order on
`List Char` (UTF-8 preserves code-point order).

`BTreeSet<Crate>` values are modelled as strictly sorted lists (`sinsert` is
ordered insertion, `smerge` is `BTreeSet::append`, i.e. set union).  The
recursion of `check_crate_whitelist` is embedded with an explicit fuel
parameter; running out of fuel is the distinguished error `TErr.fuelOut`,
and the `expect("crate does not exist")` panic is `TErr.crateNotExist`.
`check_whitelist` runs the traversal with the canonical fuel `fuelBound`
(one more than the number of root and dependency references in the input),
and the theorems below prove that this fuel is never exhausted.
-/

abbrev Str : Type := List Char

/-- A unique identifier for a crate: `struct Crate<'a>(&'a str)`. -/
abbrev Crate : Type := Str

/-- Strict lexicographic order on strings, as `Ord for &str` compares them
(byte-wise lexicographic; shorter strings precede their extensions). -/
def strLt : Str → Str → Bool
  | [], [] => false
  | [], _ :: _ => true
  | _ :: _, [] => false
  | a :: as, b :: bs => if a < b then true else if b < a then false else strLt as bs

/-- The ordering invariant of a `BTreeSet` snapshot: strictly sorted. -/
def SortedS (l : List Crate) : Prop :=
  List.Pairwise (fun a b => strLt a b = true) l

/-- Ordered insertion into a strictly sorted list: `BTreeSet::insert`. -/
def sinsert (x : Crate) : List Crate → List Crate
  | [] => [x]
  | y :: ys => if strLt x y then x :: y :: ys
               else if x = y then y :: ys
               else y :: sinsert x ys

/-- Rust's `BTreeSet::append`: move every element of the second set into the first. -/
def smerge (a b : List Crate) : List Crate :=
  b.foldl (fun acc x => sinsert x acc) a

/-- Splitting a string at every occurrence of a separator character, as
Rust's `str::split` over a one-character pattern (keeps empty pieces, always
returns at least one piece). -/
def splitOnChar (sep : Char) : Str → List Str
  | [] => [[]]
  | c :: cs =>
    match splitOnChar sep cs with
    | [] => [[c]]
    | h :: t => if c = sep then [] :: h :: t else (c :: h) :: t

/-- Embedding of `Crate::from_str`: `let mut parts = s.split(" "); let name =
parts.next().unwrap(); Crate(name)` — the piece before the first space. -/
def Crate.from_str (s : Str) : Crate :=
  match splitOnChar ' ' s with
  | name :: _ => name
  | [] => []

/-- Embedding of `Crate::id_str`: `format!("{} ", self.0)`. -/
def Crate.id_str (c : Crate) : Str := c ++ [' ']

/-- One node of the `cargo metadata` resolve graph. -/
structure ResolveNode where
  id : Str
  dependencies : List Str
deriving DecidableEq

/-- The resolve graph returned by `get_deps`. -/
structure Resolve where
  nodes : List ResolveNode
deriving DecidableEq

/-- The two ways the traversal can abort: exhausting the embedding's fuel, or
the `expect("crate does not exist")` panic. -/
inductive TErr where
  | fuelOut
  | crateNotExist
deriving DecidableEq

/-- Embedding of `resolve.nodes.iter().find(|n| n.id.starts_with(&krate.id_str()))`. -/
def findNodeFor (resolve : Resolve) (krate : Crate) : Option ResolveNode :=
  resolve.nodes.find? (fun n => (Crate.id_str krate).isPrefixOf n.id)

/-- Sequentially run `step` on a list of crates, threading the visited set and
accumulating (`BTreeSet::append`) the unapproved sets, aborting on the first
error.  This is the shape of both the dependency loop inside
`check_crate_whitelist` and the root loop inside `check_whitelist`. -/
def walkCrates (step : Crate → List Crate → Except TErr (List Crate × List Crate)) :
    List Crate → List Crate → List Crate → Except TErr (List Crate × List Crate)
  | [], unapproved, visited => .ok (unapproved, visited)
  | k :: ks, unapproved, visited =>
    match step k visited with
    | .error e => .error e
    | .ok (bad, visited') => walkCrates step ks (smerge unapproved bad) visited'

/-- Embedding of `check_crate_whitelist`, with explicit fuel.  Returns the set of illegal
dependencies together with the updated visited set. -/
def checkCrateWhitelist (wl : List Crate) (resolve : Resolve) :
    Nat → Crate → List Crate → Except TErr (List Crate × List Crate)
  | 0, _, _ => .error .fuelOut
  | fuel + 1, krate, visited =>
    if krate ∈ visited then .ok ([], visited)
    else
      let visited' := sinsert krate visited
      let unapproved : List Crate := if krate ∈ wl then [] else [krate]
      match findNodeFor resolve krate with
      | none => .error .crateNotExist
      | some node =>
        walkCrates (fun k v => checkCrateWhitelist wl resolve fuel k v)
          (node.dependencies.map Crate.from_str) unapproved visited'

/-- Every identity that can be parsed out of some node's dependency list. -/
def allDepCrates (resolve : Resolve) : List Crate :=
  ((resolve.nodes.map (fun n => n.dependencies)).flatten).map Crate.from_str

/-- All identities the traversal can ever be invoked on. -/
def candList (resolve : Resolve) (roots : List Crate) : List Crate :=
  roots ++ allDepCrates resolve

/-- The canonical fuel: one more than the number of candidate identities. -/
def fuelBound (resolve : Resolve) (roots : List Crate) : Nat :=
  (candList resolve roots).length + 1

/-- The whole traversal of `check_whitelist` (the part between building the
whitelist set and testing `unapproved.len() > 0`): walk every root with one
shared visited set and return the accumulated unapproved set. -/
def check_whitelist_core (wl : List Crate) (resolve : Resolve) (roots : List Crate) :
    Except TErr (List Crate) :=
  match walkCrates (fun k v => checkCrateWhitelist wl resolve (fuelBound resolve roots) k v)
      roots [] [] with
  | .error e => .error e
  | .ok (unapproved, _) => .ok unapproved

/-- Embedding of `WHITELIST_CRATES`: which crates to check against the whitelist. -/
def WHITELIST_CRATES : List Crate := [("rustc".toList), ("rustc_trans".toList)]

/-- Embedding of `WHITELIST`: whitelist of crates rustc is allowed to depend on, transcribed
verbatim from the source (note the trailing space inside every entry except
the last one, exactly as in the Rust static). -/
def WHITELIST : List Crate :=
  [("ar ".toList),
   ("arena ".toList),
   ("backtrace ".toList),
   ("backtrace-sys ".toList),
   ("bitflags ".toList),
   ("build_helper ".toList),
   ("byteorder ".toList),
   ("cc ".toList),
   ("cfg-if ".toList),
   ("cmake ".toList),
   ("filetime ".toList),
   ("flate2 ".toList),
   ("fmt_macros ".toList),
   ("fuchsia-zircon ".toList),
   ("fuchsia-zircon-sys ".toList),
   ("graphviz ".toList),
   ("jobserver ".toList),
   ("kernel32-sys ".toList),
   ("lazy_static ".toList),
   ("libc ".toList),
   ("log ".toList),
   ("log_settings ".toList),
   ("miniz-sys ".toList),
   ("num_cpus ".toList),
   ("owning_ref ".toList),
   ("parking_lot ".toList),
   ("parking_lot_core ".toList),
   ("rand ".toList),
   ("redox_syscall ".toList),
   ("rustc ".toList),
   ("rustc-demangle ".toList),
   ("rustc_allocator ".toList),
   ("rustc_apfloat ".toList),
   ("rustc_back ".toList),
   ("rustc_binaryen ".toList),
   ("rustc_const_eval ".toList),
   ("rustc_const_math ".toList),
   ("rustc_cratesio_shim ".toList),
   ("rustc_data_structures ".toList),
   ("rustc_errors ".toList),
   ("rustc_incremental ".toList),
   ("rustc_llvm ".toList),
   ("rustc_mir ".toList),
   ("rustc_platform_intrinsics ".toList),
   ("rustc_trans ".toList),
   ("rustc_trans_utils ".toList),
   ("serialize ".toList),
   ("smallvec ".toList),
   ("stable_deref_trait ".toList),
   ("syntax ".toList),
   ("syntax_pos ".toList),
   ("tempdir ".toList),
   ("unicode-width ".toList),
   ("winapi ".toList),
   ("winapi-build".toList)]

/-- Embedding of `check_whitelist(path, cargo, bad)`: run the traversal over
`WHITELIST_CRATES` against `WHITELIST` and set `*bad = true` exactly when the
unapproved set is non-empty.  The result carries the unapproved set (which the
source prints, sorted) and the updated `bad` flag. -/
def check_whitelist (resolve : Resolve) (bad : Bool) :
    Except TErr (List Crate × Bool) :=
  match check_whitelist_core WHITELIST resolve WHITELIST_CRATES with
  | .error e => .error e
  | .ok unapproved =>
    .ok (unapproved, if unapproved.length > 0 then true else bad)

/-- The identities reachable from the given roots, following dependency edges
through the graph's prefix-based node lookup. -/
inductive Reachable (resolve : Resolve) (roots : List Crate) : Crate → Prop
  | root {c : Crate} : c ∈ roots → Reachable resolve roots c
  | step {c : Crate} {n : ResolveNode} {d : Str} :
      Reachable resolve roots c → findNodeFor resolve c = some n →
      d ∈ n.dependencies → Reachable resolve roots (Crate.from_str d)

/-- Predicate: `c` has a node in the graph and all of that node's parsed dependencies lie
in `V`. -/
def nodeClosed (resolve : Resolve) (c : Crate) (V : List Crate) : Prop :=
  ∃ n, findNodeFor resolve c = some n ∧
    ∀ d ∈ n.dependencies, Crate.from_str d ∈ V

/-- Trace-instrumented variant of `walkCrates`: additionally threads the list
of identities whose dependency list has been expanded, in expansion order. -/
def walkCratesT
    (step : Crate → List Crate → List Crate →
      Except TErr (List Crate × List Crate × List Crate)) :
    List Crate → List Crate → List Crate → List Crate →
      Except TErr (List Crate × List Crate × List Crate)
  | [], unapproved, visited, trace => .ok (unapproved, visited, trace)
  | k :: ks, unapproved, visited, trace =>
    match step k visited trace with
    | .error e => .error e
    | .ok (bad, visited', trace') =>
      walkCratesT step ks (smerge unapproved bad) visited' trace'

/-- Trace-instrumented `check_crate_whitelist`: identical control flow, but
records `krate` at the moment its dependency list is about to be expanded. -/
def checkCrateWhitelistT (wl : List Crate) (resolve : Resolve) :
    Nat → Crate → List Crate → List Crate →
      Except TErr (List Crate × List Crate × List Crate)
  | 0, _, _, _ => .error .fuelOut
  | fuel + 1, krate, visited, trace =>
    if krate ∈ visited then .ok ([], visited, trace)
    else
      let visited' := sinsert krate visited
      let unapproved : List Crate := if krate ∈ wl then [] else [krate]
      match findNodeFor resolve krate with
      | none => .error .crateNotExist
      | some node =>
        walkCratesT (fun k v t => checkCrateWhitelistT wl resolve fuel k v t)
          (node.dependencies.map Crate.from_str) unapproved visited' (trace ++ [krate])

/-- Forget the expansion trace. -/
def dropTrace :
    Except TErr (List Crate × List Crate × List Crate) →
      Except TErr (List Crate × List Crate)
  | .error e => .error e
  | .ok (unapproved, visited, _) => .ok (unapproved, visited)

/-- The traversal of `check_whitelist` with expansion tracing. -/
def check_whitelist_coreT (wl : List Crate) (resolve : Resolve) (roots : List Crate) :
    Except TErr (List Crate × List Crate × List Crate) :=
  walkCratesT (fun k v t => checkCrateWhitelistT wl resolve (fuelBound resolve roots) k v t)
    roots [] [] []

/-- Embedding of `LICENSES`: the fixed allow-list of license expressions. -/
def LICENSES : List Str :=
  [("MIT/Apache-2.0".toList),
   ("MIT / Apache-2.0".toList),
   ("Apache-2.0/MIT".toList),
   ("Apache-2.0 / MIT".toList),
   ("MIT OR Apache-2.0".toList),
   ("MIT".toList),
   ("Unlicense/MIT".toList)]

/-- Embedding of `EXCEPTIONS`: vendored packages exempt from the license check. -/
def EXCEPTIONS : List Str :=
  [("mdbook".toList),
   ("openssl".toList),
   ("pest".toList),
   ("thread-id".toList),
   ("toml-query".toList),
   ("is-match".toList),
   ("cssparser".toList),
   ("smallvec".toList),
   ("fuchsia-zircon-sys".toList),
   ("fuchsia-zircon".toList),
   ("cssparser-macros".toList),
   ("selectors".toList),
   ("clippy_lints".toList)]

/-- Embedding of `line.find('"')`: index of the first double-quote. -/
def findQ : Str → Option Nat
  | [] => none
  | c :: cs => if c = '"' then some 0 else (findQ cs).map (· + 1)

/-- Embedding of `line.rfind('"')`: index of the last double-quote. -/
def rfindQ (s : Str) : Option Nat :=
  (findQ s.reverse).map (fun r => s.length - 1 - r)

/-- Embedding of `extract_license`.  `&line[f + 1..l]` is a Rust range slice: it panics
(modelled as `none`) unless `f + 1 ≤ l ≤ line.len()`; otherwise it is the
substring strictly between the two indices.  When `find`/`rfind` give no
quote at all the sentinel string is returned. -/
def extract_license (line : Str) : Option Str :=
  match findQ line, rfindQ line with
  | some f, some l =>
    if f + 1 ≤ l ∧ l ≤ line.length then some ((line.take l).drop (f + 1))
    else none
  | _, _ => some ("bad-license-parse".toList)

/-- Strip one trailing carriage return, as `str::lines` does on every line
that was terminated by a newline. -/
def stripCR (l : Str) : Str :=
  if l.getLast? = some '\r' then l.dropLast else l

/-- Embedding of `str::lines`: split at `'\n'`; every piece that was
terminated by a newline loses one trailing `'\r'`; the final piece (the rest
of the string) is kept as-is, except that a final empty piece — the string
ended with a newline — is dropped. -/
def rustLines (s : Str) : List Str :=
  let parts := splitOnChar '\n' s
  let main := parts.dropLast.map stripCR
  match parts.getLast? with
  | some [] => main
  | some last => main ++ [last]
  | none => main

/-- The line scan of `check_license`: skip lines that do not start with
`license`; on the first one that does, extract its license and test it against
`LICENSES` (printing a diagnostic and returning `false` when it is not
allow-listed); after an exhausted scan report `no license`.  `none` models a
propagated `extract_license` panic. -/
def licenseLoop (path : Str) : List Str → Option (Bool × List Str)
  | [] => some (false, [("no license in ".toList) ++ path])
  | line :: rest =>
    if ("license".toList).isPrefixOf line then
      match extract_license line with
      | none => none
      | some license =>
        if license ∈ LICENSES then some (true, [])
        else some (false, [("invalid license ".toList) ++ license ++ (" in ".toList) ++ path])
    else licenseLoop path rest

/-- Embedding of `check_license(path)`: panics (`none`) when the manifest file does not
exist (`file = none`), otherwise scans its contents.  Returns the boolean
verdict together with the printed diagnostics. -/
def check_license (path : Str) (file : Option Str) : Option (Bool × List Str) :=
  match file with
  | none => none
  | some contents => licenseLoop path (rustLines contents)

/-- Rust's `str::contains`: substring search. -/
def containsSub (hay needle : Str) : Bool :=
  match hay with
  | [] => needle.isEmpty
  | _ :: cs => needle.isPrefixOf hay || containsSub cs needle

/-- The exception test inside `check`: the directory's path contains
`"src/vendor/{exception}"` for some exception. -/
def isException (path : Str) : Bool :=
  EXCEPTIONS.any (fun e => containsSub path (("src/vendor/".toList) ++ e))

/-- One entry of the vendor directory: its path string and the contents of its
`Cargo.toml`, when that file exists. -/
structure VendorDir where
  path : Str
  cargoToml : Option Str
deriving DecidableEq

/-- The directory loop of `check`: skip exceptions, otherwise fold the
verdict into `bad` with `*bad = *bad || !check_license(&toml)` — Rust's `||`
short-circuits, so once `bad` is true `check_license` is not invoked at
all. -/
def checkGo : List VendorDir → Bool → Option Bool
  | [], bad => some bad
  | d :: ds, bad =>
    if isException d.path then checkGo ds bad
    else if bad then checkGo ds true
    else
      match check_license (d.path ++ ("/Cargo.toml".toList)) d.cargoToml with
      | none => none
      | some (ok, _) => checkGo ds (!ok)

/-- Embedding of `check(path, bad)`: fails (`none`, the `saw_dir` assertion) on an empty
vendor directory, otherwise runs the directory loop. -/
def check (dirs : List VendorDir) (bad : Bool) : Option Bool :=
  if dirs.isEmpty then none else checkGo dirs bad


/-- A concrete metadata snapshot holding exactly the two configured roots,
each with an empty dependency list. -/
def rcRustc : Resolve :=
  ⟨[⟨("rustc 1.25.0 (path+file:///checkout/src/librustc)".toList), []⟩,
    ⟨("rustc_trans 1.25.0 (path+file:///checkout/src/librustc_trans)".toList), []⟩]⟩

/-- A concrete chain graph: a → b → c. -/
def rcAbc : Resolve :=
  ⟨[⟨("a 1.0.0 (x)".toList), [("b 1.0.0 (x)".toList)]⟩,
    ⟨("b 1.0.0 (x)".toList), [("c 1.0.0 (x)".toList)]⟩,
    ⟨("c 1.0.0 (x)".toList), []⟩]⟩

/-- A concrete allow-set for `rcAbc`. -/
def wlAb : List Crate := [("a".toList), ("b".toList)]

/-- A concrete diamond graph: a → b → d, a → c → d. -/
def rcDiamond : Resolve :=
  ⟨[⟨("a 1 (x)".toList), [("b 1 (x)".toList), ("c 1 (x)".toList)]⟩,
    ⟨("b 1 (x)".toList), [("d 1 (x)".toList)]⟩,
    ⟨("c 1 (x)".toList), [("d 1 (x)".toList)]⟩,
    ⟨("d 1 (x)".toList), []⟩]⟩

/-- The empty metadata snapshot. -/
def rcEmpty : Resolve := ⟨[]⟩

/-- A single vendored directory whose manifest declares a non-allow-listed
license. -/
def dirsBad : List VendorDir :=
  [⟨("work/x".toList), some ("license = \"GPL-2.0\"".toList)⟩]

theorem strLt_irrefl (a : Str) : strLt a a = false := by
  induction a with
  | nil => rfl
  | cons c cs ih => simp [strLt, ih]

theorem strLt_cons_iff {x y : Char} {xs ys : Str} :
    strLt (x :: xs) (y :: ys) = true ↔ (x < y ∨ (x = y ∧ strLt xs ys = true)) := by
  simp only [strLt]
  split_ifs with h1 h2
  · simp [h1]
  · have hne : x ≠ y := ne_of_gt h2
    simp [hne, not_lt.mpr (le_of_lt h2), asymm h2]
  · have hxy : x = y := le_antisymm (not_lt.mp h2) (not_lt.mp h1)
    simp [hxy]

theorem strLt_trans {a b c : Str} (h1 : strLt a b = true) (h2 : strLt b c = true) :
    strLt a c = true := by
  induction a generalizing b c with
  | nil =>
    cases b with
    | nil => simp [strLt] at h1
    | cons y ys => cases c with
      | nil => simp [strLt] at h2
      | cons z zs => simp [strLt]
  | cons x xs ih =>
    cases b with
    | nil => simp [strLt] at h1
    | cons y ys =>
      cases c with
      | nil => simp [strLt] at h2
      | cons z zs =>
        rw [strLt_cons_iff] at h1 h2 ⊢
        rcases h1 with h1 | ⟨rfl, h1⟩
        · rcases h2 with h2 | ⟨rfl, h2⟩
          · exact Or.inl (lt_trans h1 h2)
          · exact Or.inl h1
        · rcases h2 with h2 | ⟨rfl, h2⟩
          · exact Or.inl h2
          · exact Or.inr ⟨rfl, ih h1 h2⟩

theorem strLt_conn {a b : Str} (h1 : strLt a b = false) (h2 : strLt b a = false) :
    a = b := by
  induction a generalizing b with
  | nil =>
    cases b with
    | nil => rfl
    | cons y ys => simp [strLt] at h1
  | cons x xs ih =>
    cases b with
    | nil => simp [strLt] at h2
    | cons y ys =>
      have h1' := h1
      rw [Bool.eq_false_iff, Ne, strLt_cons_iff] at h1 h2
      push_neg at h1 h2
      have hxy : x = y := le_antisymm h2.1 h1.1
      subst hxy
      have e1 : strLt xs ys = false := Bool.eq_false_iff.mpr (h1.2 rfl)
      have e2 : strLt ys xs = false := Bool.eq_false_iff.mpr (h2.2 rfl)
      rw [ih e1 e2]

theorem mem_sinsert {x y : Crate} {l : List Crate} :
    y ∈ sinsert x l ↔ y = x ∨ y ∈ l := by
  induction l with
  | nil => simp [sinsert]
  | cons z zs ih =>
    simp only [sinsert]
    split_ifs with h1 h2
    · simp [List.mem_cons]
    · subst h2
      simp [List.mem_cons]
    · simp [List.mem_cons, ih]
      tauto

theorem mem_sinsert_self (x : Crate) (l : List Crate) : x ∈ sinsert x l :=
  mem_sinsert.mpr (Or.inl rfl)

theorem subset_sinsert (x : Crate) (l : List Crate) : l ⊆ sinsert x l :=
  fun _ h => mem_sinsert.mpr (Or.inr h)

theorem sortedS_sinsert {x : Crate} {l : List Crate} (h : SortedS l) :
    SortedS (sinsert x l) := by
  induction l with
  | nil => simp [sinsert, SortedS]
  | cons z zs ih =>
    rcases (List.pairwise_cons.mp h) with ⟨hz, hzs⟩
    simp only [sinsert]
    split_ifs with h1 h2
    · refine List.pairwise_cons.mpr ⟨?_, h⟩
      intro b hb
      rcases List.mem_cons.mp hb with rfl | hb
      · exact h1
      · exact strLt_trans h1 (hz b hb)
    · exact h
    · refine List.pairwise_cons.mpr ⟨?_, ih hzs⟩
      intro b hb
      rcases mem_sinsert.mp hb with rfl | hb
      · cases hzb : strLt z b
        · exact absurd (strLt_conn (Bool.eq_false_iff.mpr h1) hzb) h2
        · rfl
      · exact hz b hb

theorem smerge_cons (a : List Crate) (c : Crate) (cs : List Crate) :
    smerge a (c :: cs) = smerge (sinsert c a) cs := rfl

theorem mem_smerge {a b : List Crate} {x : Crate} :
    x ∈ smerge a b ↔ x ∈ a ∨ x ∈ b := by
  induction b generalizing a with
  | nil => simp [smerge]
  | cons c cs ih =>
    rw [smerge_cons, ih]
    simp [mem_sinsert]
    tauto

theorem sortedS_smerge {a : List Crate} (b : List Crate) (h : SortedS a) :
    SortedS (smerge a b) := by
  induction b generalizing a with
  | nil => exact h
  | cons c cs ih => rw [smerge_cons]; exact ih (sortedS_sinsert h)

theorem SortedS.nodup {l : List Crate} (h : SortedS l) : l.Nodup := by
  refine h.imp ?_
  intro a b hab
  intro heq
  subst heq
  rw [strLt_irrefl] at hab
  exact Bool.false_ne_true hab

section WalkLemmas

variable {step : Crate → List Crate → Except TErr (List Crate × List Crate)}

theorem walkCrates_mono
    (HsM : ∀ k v un' v', step k v = .ok (un', v') → v ⊆ v' ∧ k ∈ v') :
    ∀ ks un vis unF visF, walkCrates step ks un vis = .ok (unF, visF) →
      vis ⊆ visF ∧ un ⊆ unF ∧ ∀ k ∈ ks, k ∈ visF := by
  intro ks
  induction ks with
  | nil =>
    intro un vis unF visF h
    simp only [walkCrates, Except.ok.injEq, Prod.mk.injEq] at h
    obtain ⟨rfl, rfl⟩ := h
    exact ⟨fun x hx => hx, fun x hx => hx, by simp⟩
  | cons k ks ih =>
    intro un vis unF visF h
    cases hs : step k vis with
    | error e =>
      simp only [walkCrates, hs] at h
      exact Except.noConfusion h
    | ok p =>
      obtain ⟨bad, v1⟩ := p
      simp only [walkCrates, hs] at h
      obtain ⟨hsub, hk⟩ := HsM k vis bad v1 hs
      obtain ⟨h1, h2, h3⟩ := ih (smerge un bad) v1 unF visF h
      refine ⟨fun x hx => h1 (hsub hx), fun x hx => h2 (mem_smerge.mpr (Or.inl hx)), ?_⟩
      intro k' hk'
      rcases List.mem_cons.mp hk' with rfl | hk'
      · exact h1 hk
      · exact h3 k' hk'

theorem walkCrates_un (wl : List Crate)
    (HsM : ∀ k v un' v', step k v = .ok (un', v') → v ⊆ v' ∧ k ∈ v')
    (HsU : ∀ k v un' v', step k v = .ok (un', v') →
      ∀ x, x ∈ un' ↔ (x ∈ v' ∧ x ∉ v ∧ x ∉ wl)) :
    ∀ ks un vis unF visF, walkCrates step ks un vis = .ok (unF, visF) →
      ∀ x, x ∈ unF ↔ (x ∈ un ∨ (x ∈ visF ∧ x ∉ vis ∧ x ∉ wl)) := by
  intro ks
  induction ks with
  | nil =>
    intro un vis unF visF h x
    simp only [walkCrates, Except.ok.injEq, Prod.mk.injEq] at h
    obtain ⟨rfl, rfl⟩ := h
    simp
    tauto
  | cons k ks ih =>
    intro un vis unF visF h x
    cases hs : step k vis with
    | error e =>
      simp only [walkCrates, hs] at h
      exact Except.noConfusion h
    | ok p =>
      obtain ⟨bad, v1⟩ := p
      simp only [walkCrates, hs] at h
      have hv1F : v1 ⊆ visF := (walkCrates_mono HsM ks _ v1 unF visF h).1
      have hvv1 : vis ⊆ v1 := (HsM k vis bad v1 hs).1
      have hbad := HsU k vis bad v1 hs
      have hrec := ih (smerge un bad) v1 unF visF h x
      rw [hrec]
      constructor
      · rintro (hsm | ⟨hF, hnv1, hnwl⟩)
        · rcases mem_smerge.mp hsm with hun | hb
          · exact Or.inl hun
          · rcases (hbad x).mp hb with ⟨hxv1, hxnv, hxnwl⟩
            exact Or.inr ⟨hv1F hxv1, hxnv, hxnwl⟩
        · exact Or.inr ⟨hF, fun hv => hnv1 (hvv1 hv), hnwl⟩
      · rintro (hun | ⟨hF, hnv, hnwl⟩)
        · exact Or.inl (mem_smerge.mpr (Or.inl hun))
        · by_cases hx1 : x ∈ v1
          · exact Or.inl (mem_smerge.mpr (Or.inr ((hbad x).mpr ⟨hx1, hnv, hnwl⟩)))
          · exact Or.inr ⟨hF, hx1, hnwl⟩

theorem walkCrates_reach (R : Crate → Crate → Prop)
    (HsR : ∀ k v un' v', step k v = .ok (un', v') → ∀ x ∈ v', x ∈ v ∨ R k x) :
    ∀ ks un vis unF visF, walkCrates step ks un vis = .ok (unF, visF) →
      ∀ x ∈ visF, x ∈ vis ∨ ∃ k, k ∈ ks ∧ R k x := by
  intro ks
  induction ks with
  | nil =>
    intro un vis unF visF h x hx
    simp only [walkCrates, Except.ok.injEq, Prod.mk.injEq] at h
    obtain ⟨rfl, rfl⟩ := h
    exact Or.inl hx
  | cons k ks ih =>
    intro un vis unF visF h x hx
    cases hs : step k vis with
    | error e =>
      simp only [walkCrates, hs] at h
      exact Except.noConfusion h
    | ok p =>
      obtain ⟨bad, v1⟩ := p
      simp only [walkCrates, hs] at h
      rcases ih (smerge un bad) v1 unF visF h x hx with hv1 | ⟨k', hk', hR⟩
      · rcases HsR k vis bad v1 hs x hv1 with hv | hR
        · exact Or.inl hv
        · exact Or.inr ⟨k, List.mem_cons_self k ks, hR⟩
      · exact Or.inr ⟨k', List.mem_cons_of_mem k hk', hR⟩

theorem walkCrates_closed (NC : Crate → List Crate → Prop)
    (HsM : ∀ k v un' v', step k v = .ok (un', v') → v ⊆ v' ∧ k ∈ v')
    (HsC : ∀ k v un' v', step k v = .ok (un', v') → ∀ c ∈ v', c ∉ v → NC c v')
    (HNCmono : ∀ c V V', NC c V → V ⊆ V' → NC c V') :
    ∀ ks un vis unF visF, walkCrates step ks un vis = .ok (unF, visF) →
      ∀ c ∈ visF, c ∉ vis → NC c visF := by
  intro ks
  induction ks with
  | nil =>
    intro un vis unF visF h c hc hcn
    simp only [walkCrates, Except.ok.injEq, Prod.mk.injEq] at h
    obtain ⟨rfl, rfl⟩ := h
    exact absurd hc hcn
  | cons k ks ih =>
    intro un vis unF visF h c hc hcn
    cases hs : step k vis with
    | error e =>
      simp only [walkCrates, hs] at h
      exact Except.noConfusion h
    | ok p =>
      obtain ⟨bad, v1⟩ := p
      simp only [walkCrates, hs] at h
      by_cases hc1 : c ∈ v1
      · have := HsC k vis bad v1 hs c hc1 hcn
        exact HNCmono c v1 visF this (walkCrates_mono HsM ks _ v1 unF visF h).1
      · exact ih (smerge un bad) v1 unF visF h c hc hc1

theorem walkCrates_sorted
    (HsS : ∀ k v un' v', SortedS v → step k v = .ok (un', v') →
      SortedS v' ∧ SortedS un') :
    ∀ ks un vis unF visF, SortedS vis → SortedS un →
      walkCrates step ks un vis = .ok (unF, visF) → SortedS visF ∧ SortedS unF := by
  intro ks
  induction ks with
  | nil =>
    intro un vis unF visF hv hu h
    simp only [walkCrates, Except.ok.injEq, Prod.mk.injEq] at h
    obtain ⟨rfl, rfl⟩ := h
    exact ⟨hv, hu⟩
  | cons k ks ih =>
    intro un vis unF visF hv hu h
    cases hs : step k vis with
    | error e =>
      simp only [walkCrates, hs] at h
      exact Except.noConfusion h
    | ok p =>
      obtain ⟨bad, v1⟩ := p
      simp only [walkCrates, hs] at h
      obtain ⟨hv1, _⟩ := HsS k vis bad v1 hv hs
      exact ih (smerge un bad) v1 unF visF hv1 (sortedS_smerge bad hu) h

theorem walkCrates_ne (err0 : TErr) (Q : Crate → Prop) (P : List Crate → Prop)
    (HNe : ∀ k v, Q k → P v → step k v ≠ .error err0)
    (HPres : ∀ k v un' v', Q k → P v → step k v = .ok (un', v') → P v') :
    ∀ ks un vis, (∀ k ∈ ks, Q k) → P vis → walkCrates step ks un vis ≠ .error err0 := by
  intro ks
  induction ks with
  | nil =>
    intro un vis _ _ h
    simp only [walkCrates] at h
    exact Except.noConfusion h
  | cons k ks ih =>
    intro un vis hQ hP h
    cases hs : step k vis with
    | error e =>
      simp only [walkCrates, hs, Except.error.injEq] at h
      exact HNe k vis (hQ k (List.mem_cons_self k ks)) hP (by rw [hs, h])
    | ok p =>
      obtain ⟨bad, v1⟩ := p
      simp only [walkCrates, hs] at h
      exact ih (smerge un bad) v1 (fun k' hk' => hQ k' (List.mem_cons_of_mem k hk'))
        (HPres k vis bad v1 (hQ k (List.mem_cons_self k ks)) hP hs) h

end WalkLemmas

theorem reachable_trans {resolve : Resolve} {roots : List Crate} {b x : Crate}
    (hbx : Reachable resolve [b] x) (hb : Reachable resolve roots b) :
    Reachable resolve roots x := by
  induction hbx with
  | root hc =>
    rcases List.mem_singleton.mp hc with rfl
    exact hb
  | step _ hfind hd ih => exact .step ih hfind hd

theorem reachable_bound {resolve : Resolve} {roots : List Crate} {x : Crate}
    (h : Reachable resolve roots x) : x ∈ roots ∨ x ∈ allDepCrates resolve := by
  induction h with
  | root hc => exact Or.inl hc
  | step _ hfind hd _ =>
    right
    refine List.mem_map.mpr ⟨_, ?_, rfl⟩
    refine List.mem_flatten.mpr ⟨_, ?_, hd⟩
    exact List.mem_map.mpr ⟨_, List.mem_of_find?_eq_some hfind, rfl⟩

theorem nodeClosed_mono {resolve : Resolve} {c : Crate} {V V' : List Crate}
    (h : nodeClosed resolve c V) (hsub : V ⊆ V') : nodeClosed resolve c V' := by
  obtain ⟨n, hn, hd⟩ := h
  exact ⟨n, hn, fun d hdep => hsub (hd d hdep)⟩

section CWLemmas

variable {wl : List Crate} {resolve : Resolve}

theorem cCW_mono : ∀ fuel (k : Crate) (v un' v' : List Crate),
    checkCrateWhitelist wl resolve fuel k v = .ok (un', v') → v ⊆ v' ∧ k ∈ v' := by
  intro fuel
  induction fuel with
  | zero =>
    intro k v un' v' h
    exact Except.noConfusion h
  | succ fuel ih =>
    intro k v un' v' h
    simp only [checkCrateWhitelist] at h
    by_cases hk : k ∈ v
    · simp only [if_pos hk, Except.ok.injEq, Prod.mk.injEq] at h
      obtain ⟨rfl, rfl⟩ := h
      exact ⟨fun x hx => hx, hk⟩
    · simp only [if_neg hk] at h
      cases hfind : findNodeFor resolve k with
      | none =>
        rw [hfind] at h
        exact Except.noConfusion h
      | some node =>
        rw [hfind] at h
        obtain ⟨h1, _, _⟩ :=
          walkCrates_mono (fun k' v'' un'' v''' hstep => ih k' v'' un'' v''' hstep)
            (node.dependencies.map Crate.from_str) _ (sinsert k v) un' v' h
        exact ⟨fun x hx => h1 (subset_sinsert k v hx), h1 (mem_sinsert_self k v)⟩

theorem cCW_un : ∀ fuel (k : Crate) (v un' v' : List Crate),
    checkCrateWhitelist wl resolve fuel k v = .ok (un', v') →
      ∀ x, x ∈ un' ↔ (x ∈ v' ∧ x ∉ v ∧ x ∉ wl) := by
  intro fuel
  induction fuel with
  | zero =>
    intro k v un' v' h
    exact Except.noConfusion h
  | succ fuel ih =>
    intro k v un' v' h x
    simp only [checkCrateWhitelist] at h
    by_cases hk : k ∈ v
    · simp only [if_pos hk, Except.ok.injEq, Prod.mk.injEq] at h
      obtain ⟨rfl, rfl⟩ := h
      simp
      intro h1 h2
      exact absurd h1 h2
    · simp only [if_neg hk] at h
      cases hfind : findNodeFor resolve k with
      | none =>
        rw [hfind] at h
        exact Except.noConfusion h
      | some node =>
        rw [hfind] at h
        have hmono := walkCrates_mono (fun a b c d hstep => cCW_mono fuel a b c d hstep)
          (node.dependencies.map Crate.from_str) _ (sinsert k v) un' v' h
        have hrec := walkCrates_un wl (fun a b c d hstep => cCW_mono fuel a b c d hstep)
          (fun a b c d hstep => ih a b c d hstep)
          (node.dependencies.map Crate.from_str) _ (sinsert k v) un' v' h x
        rw [hrec]
        constructor
        · rintro (h0 | ⟨hv', hns, hnwl⟩)
          · by_cases hw : k ∈ wl
            · simp [if_pos hw] at h0
            · simp [if_neg hw] at h0
              subst h0
              exact ⟨hmono.1 (mem_sinsert_self x v), hk, hw⟩
          · exact ⟨hv', fun hv => hns (subset_sinsert k v hv), hnwl⟩
        · rintro ⟨hv', hnv, hnwl⟩
          by_cases hx : x = k
          · subst hx
            left
            simp [if_neg hnwl]
          · right
            refine ⟨hv', fun hs => ?_, hnwl⟩
            rcases mem_sinsert.mp hs with rfl | hs
            · exact hx rfl
            · exact hnv hs

theorem cCW_reach : ∀ fuel (k : Crate) (v un' v' : List Crate),
    checkCrateWhitelist wl resolve fuel k v = .ok (un', v') →
      ∀ x ∈ v', x ∈ v ∨ Reachable resolve [k] x := by
  intro fuel
  induction fuel with
  | zero =>
    intro k v un' v' h
    exact Except.noConfusion h
  | succ fuel ih =>
    intro k v un' v' h x hx
    simp only [checkCrateWhitelist] at h
    by_cases hk : k ∈ v
    · simp only [if_pos hk, Except.ok.injEq, Prod.mk.injEq] at h
      obtain ⟨rfl, rfl⟩ := h
      exact Or.inl hx
    · simp only [if_neg hk] at h
      cases hfind : findNodeFor resolve k with
      | none =>
        rw [hfind] at h
        exact Except.noConfusion h
      | some node =>
        rw [hfind] at h
        have hrec := walkCrates_reach (fun a y => Reachable resolve [a] y)
          (fun a b c d hstep => ih a b c d hstep)
          (node.dependencies.map Crate.from_str) _ (sinsert k v) un' v' h x hx
        rcases hrec with hs | ⟨k', hk', hR⟩
        · rcases mem_sinsert.mp hs with rfl | hs
          · exact Or.inr (.root (List.mem_singleton_self x))
          · exact Or.inl hs
        · rcases List.mem_map.mp hk' with ⟨d, hd, rfl⟩
          refine Or.inr (reachable_trans hR ?_)
          exact .step (.root (List.mem_singleton_self k)) hfind hd

theorem cCW_closed : ∀ fuel (k : Crate) (v un' v' : List Crate),
    checkCrateWhitelist wl resolve fuel k v = .ok (un', v') →
      ∀ c ∈ v', c ∉ v → nodeClosed resolve c v' := by
  intro fuel
  induction fuel with
  | zero =>
    intro k v un' v' h
    exact Except.noConfusion h
  | succ fuel ih =>
    intro k v un' v' h c hc hcn
    simp only [checkCrateWhitelist] at h
    by_cases hk : k ∈ v
    · simp only [if_pos hk, Except.ok.injEq, Prod.mk.injEq] at h
      obtain ⟨rfl, rfl⟩ := h
      exact absurd hc hcn
    · simp only [if_neg hk] at h
      cases hfind : findNodeFor resolve k with
      | none =>
        rw [hfind] at h
        exact Except.noConfusion h
      | some node =>
        rw [hfind] at h
        have hmono := walkCrates_mono (fun a b c' d hstep => cCW_mono fuel a b c' d hstep)
          (node.dependencies.map Crate.from_str) _ (sinsert k v) un' v' h
        by_cases hck : c = k
        · subst hck
          refine ⟨node, hfind, fun d hd => ?_⟩
          exact hmono.2.2 (Crate.from_str d) (List.mem_map.mpr ⟨d, hd, rfl⟩)
        · have hcs : c ∉ sinsert k v := by
            intro hs
            rcases mem_sinsert.mp hs with rfl | hs
            · exact hck rfl
            · exact hcn hs
          exact walkCrates_closed (nodeClosed resolve)
            (fun a b c' d hstep => cCW_mono fuel a b c' d hstep)
            (fun a b c' d hstep => ih a b c' d hstep)
            (fun a V V' hNC hsub => nodeClosed_mono hNC hsub)
            (node.dependencies.map Crate.from_str) _ (sinsert k v) un' v' h c hc hcs

theorem cCW_sorted : ∀ fuel (k : Crate) (v un' v' : List Crate),
    SortedS v → checkCrateWhitelist wl resolve fuel k v = .ok (un', v') →
      SortedS v' ∧ SortedS un' := by
  intro fuel
  induction fuel with
  | zero =>
    intro k v un' v' _ h
    exact Except.noConfusion h
  | succ fuel ih =>
    intro k v un' v' hv h
    simp only [checkCrateWhitelist] at h
    by_cases hk : k ∈ v
    · simp only [if_pos hk, Except.ok.injEq, Prod.mk.injEq] at h
      obtain ⟨rfl, rfl⟩ := h
      exact ⟨hv, List.Pairwise.nil⟩
    · simp only [if_neg hk] at h
      cases hfind : findNodeFor resolve k with
      | none =>
        rw [hfind] at h
        exact Except.noConfusion h
      | some node =>
        rw [hfind] at h
        refine walkCrates_sorted (fun a b c d hb hstep => ih a b c d hb hstep)
          (node.dependencies.map Crate.from_str) _ (sinsert k v)
          un' v' (sortedS_sinsert hv) ?_ h
        by_cases hw : k ∈ wl
        · simp [if_pos hw, SortedS]
        · simp [if_neg hw, SortedS]

end CWLemmas

theorem toFinset_sinsert (k : Crate) (v : List Crate) :
    (sinsert k v).toFinset = insert k v.toFinset := by
  ext x
  simp [List.mem_toFinset, mem_sinsert, Finset.mem_insert]

section CWTermination

variable {wl : List Crate} {resolve : Resolve}

theorem cCW_nofuel (S : Finset Crate) (hS : ∀ x ∈ allDepCrates resolve, x ∈ S) :
    ∀ fuel (k : Crate) (v : List Crate), k ∈ S → (∀ x ∈ v, x ∈ S) →
      (S \ v.toFinset).card + 1 ≤ fuel →
      checkCrateWhitelist wl resolve fuel k v ≠ .error .fuelOut := by
  intro fuel
  induction fuel with
  | zero =>
    intro k v _ _ hcard
    exact absurd hcard (by omega)
  | succ fuel ih =>
    intro k v hkS hvS hcard h
    simp only [checkCrateWhitelist] at h
    by_cases hk : k ∈ v
    · simp only [if_pos hk] at h
      exact Except.noConfusion h
    · simp only [if_neg hk] at h
      cases hfind : findNodeFor resolve k with
      | none =>
        rw [hfind] at h
        simp only [Except.error.injEq] at h
        exact TErr.noConfusion h
      | some node =>
        rw [hfind] at h
        have hkmem : k ∈ S \ v.toFinset :=
          Finset.mem_sdiff.mpr ⟨hkS, fun hc => hk (List.mem_toFinset.mp hc)⟩
        have hcard1 : (S \ (sinsert k v).toFinset).card + 1 ≤ fuel := by
          rw [toFinset_sinsert, Finset.sdiff_insert]
          have := Finset.card_erase_of_mem hkmem
          have hpos : 0 < (S \ v.toFinset).card := Finset.card_pos.mpr ⟨k, hkmem⟩
          omega
        refine walkCrates_ne .fuelOut (fun c => c ∈ S)
          (fun v'' => (∀ x ∈ v'', x ∈ S) ∧ ∀ x ∈ sinsert k v, x ∈ v'')
          ?_ ?_ (node.dependencies.map Crate.from_str) _ (sinsert k v) ?_ ?_ h
        · intro k' v'' hQ hP
          refine ih k' v'' hQ hP.1 ?_
          have hsub : (sinsert k v).toFinset ⊆ v''.toFinset := by
            intro x hx
            exact List.mem_toFinset.mpr (hP.2 x (List.mem_toFinset.mp hx))
          have hle : (S \ v''.toFinset).card ≤ (S \ (sinsert k v).toFinset).card :=
            Finset.card_le_card (Finset.sdiff_subset_sdiff (le_refl S) hsub)
          omega
        · intro k' v'' un'' v''' hQ hP hstep
          constructor
          · intro x hx
            rcases cCW_reach fuel k' v'' un'' v''' hstep x hx with hxv | hxr
            · exact hP.1 x hxv
            · rcases reachable_bound hxr with hx1 | hx2
              · rcases List.mem_singleton.mp hx1 with rfl
                exact hQ
              · exact hS x hx2
          · intro x hx
            exact (cCW_mono fuel k' v'' un'' v''' hstep).1 (hP.2 x hx)
        · intro k' hk'
          rcases List.mem_map.mp hk' with ⟨d, hd, rfl⟩
          refine hS _ (List.mem_map.mpr ⟨d, ?_, rfl⟩)
          exact List.mem_flatten.mpr
            ⟨node.dependencies, List.mem_map.mpr ⟨node, List.mem_of_find?_eq_some hfind, rfl⟩, hd⟩
        · refine ⟨?_, fun x hx => hx⟩
          intro x hx
          rcases mem_sinsert.mp hx with rfl | hx
          · exact hkS
          · exact hvS x hx

theorem cCW_noexist (roots : List Crate)
    (HA : ∀ x, Reachable resolve roots x → findNodeFor resolve x ≠ none) :
    ∀ fuel (k : Crate) (v : List Crate), Reachable resolve roots k →
      checkCrateWhitelist wl resolve fuel k v ≠ .error .crateNotExist := by
  intro fuel
  induction fuel with
  | zero =>
    intro k v _ h
    simp only [checkCrateWhitelist, Except.error.injEq] at h
    exact TErr.noConfusion h
  | succ fuel ih =>
    intro k v hreach h
    simp only [checkCrateWhitelist] at h
    by_cases hk : k ∈ v
    · simp only [if_pos hk] at h
      exact Except.noConfusion h
    · simp only [if_neg hk] at h
      cases hfind : findNodeFor resolve k with
      | none => exact HA k hreach hfind
      | some node =>
        rw [hfind] at h
        refine walkCrates_ne .crateNotExist (fun c => Reachable resolve roots c)
          (fun _ => True) ?_ (fun _ _ _ _ _ _ _ => trivial)
          (node.dependencies.map Crate.from_str) _ (sinsert k v) ?_ trivial h
        · intro k' v'' hQ _
          exact ih k' v'' hQ
        · intro k' hk'
          rcases List.mem_map.mp hk' with ⟨d, hd, rfl⟩
          exact .step hreach hfind hd

end CWTermination

section RunLemmas

variable {wl : List Crate} {resolve : Resolve} {roots : List Crate}

theorem run_nofuel (wl : List Crate) (resolve : Resolve) (roots : List Crate) :
    walkCrates (fun k v => checkCrateWhitelist wl resolve (fuelBound resolve roots) k v)
      roots [] [] ≠ .error .fuelOut := by
  have hS : ∀ x ∈ allDepCrates resolve, x ∈ (candList resolve roots).toFinset := by
    intro x hx
    exact List.mem_toFinset.mpr (List.mem_append_right roots hx)
  refine walkCrates_ne .fuelOut (fun c => c ∈ (candList resolve roots).toFinset)
    (fun v => ∀ x ∈ v, x ∈ (candList resolve roots).toFinset) ?_ ?_ roots [] [] ?_ ?_
  · intro k v hQ hP
    refine cCW_nofuel (candList resolve roots).toFinset hS (fuelBound resolve roots) k v hQ hP ?_
    have h1 : ((candList resolve roots).toFinset \ v.toFinset).card ≤
        (candList resolve roots).toFinset.card :=
      Finset.card_le_card (Finset.sdiff_subset)
    have h2 := List.toFinset_card_le (candList resolve roots)
    simp only [fuelBound]
    omega
  · intro k v un' v' hQ hP hstep x hx
    rcases cCW_reach _ k v un' v' hstep x hx with hxv | hxr
    · exact hP x hxv
    · rcases reachable_bound hxr with hx1 | hx2
      · rcases List.mem_singleton.mp hx1 with rfl
        exact hQ
      · exact hS x hx2
  · intro k hk
    exact List.mem_toFinset.mpr (List.mem_append_left _ hk)
  · intro x hx
    exact absurd hx (List.not_mem_nil x)

theorem run_noexist
    (hnodes : ∀ x, Reachable resolve roots x → findNodeFor resolve x ≠ none) :
    walkCrates (fun k v => checkCrateWhitelist wl resolve (fuelBound resolve roots) k v)
      roots [] [] ≠ .error .crateNotExist := by
  refine walkCrates_ne .crateNotExist (fun c => Reachable resolve roots c)
    (fun _ => True) ?_ (fun _ _ _ _ _ _ _ => trivial) roots [] [] ?_ trivial
  · intro k v hQ _
    exact cCW_noexist roots hnodes _ k v hQ
  · intro k hk
    exact .root hk

theorem run_visF_iff {unF visF : List Crate}
    (h : walkCrates (fun k v => checkCrateWhitelist wl resolve (fuelBound resolve roots) k v)
      roots [] [] = .ok (unF, visF)) :
    ∀ x, x ∈ visF ↔ Reachable resolve roots x := by
  intro x
  constructor
  · intro hx
    rcases walkCrates_reach (fun a y => Reachable resolve [a] y)
      (fun a b c d hstep => cCW_reach _ a b c d hstep) roots [] [] unF visF h x hx with
      h0 | ⟨k, hk, hR⟩
    · exact absurd h0 (List.not_mem_nil x)
    · exact reachable_trans hR (.root hk)
  · intro hx
    induction hx with
    | root hc =>
      exact (walkCrates_mono (fun a b c d hstep => cCW_mono _ a b c d hstep)
        roots [] [] unF visF h).2.2 _ hc
    | step hrc hfind hd ih =>
      obtain ⟨n', hn', hdeps⟩ := walkCrates_closed (nodeClosed resolve)
        (fun a b c d hstep => cCW_mono _ a b c d hstep)
        (fun a b c d hstep => cCW_closed _ a b c d hstep)
        (fun a V V' h1 h2 => nodeClosed_mono h1 h2)
        roots [] [] unF visF h _ ih (List.not_mem_nil _)
      have hnn : n' = _ := Option.some.inj (hn'.symm.trans hfind)
      subst hnn
      exact hdeps _ hd

theorem run_un_iff {unF visF : List Crate}
    (h : walkCrates (fun k v => checkCrateWhitelist wl resolve (fuelBound resolve roots) k v)
      roots [] [] = .ok (unF, visF)) :
    ∀ x, x ∈ unF ↔ (Reachable resolve roots x ∧ x ∉ wl) := by
  intro x
  have hun := walkCrates_un wl (fun a b c d hstep => cCW_mono _ a b c d hstep)
    (fun a b c d hstep => cCW_un _ a b c d hstep) roots [] [] unF visF h x
  rw [hun, ← run_visF_iff h x]
  simp

theorem run_sorted {unF visF : List Crate}
    (h : walkCrates (fun k v => checkCrateWhitelist wl resolve (fuelBound resolve roots) k v)
      roots [] [] = .ok (unF, visF)) :
    SortedS visF ∧ SortedS unF :=
  walkCrates_sorted (fun a b c d hb hstep => cCW_sorted _ a b c d hb hstep)
    roots [] [] unF visF List.Pairwise.nil List.Pairwise.nil h

end RunLemmas

section TraceLemmas

variable {stepT : Crate → List Crate → List Crate →
  Except TErr (List Crate × List Crate × List Crate)}

theorem walkCratesT_proj
    {step : Crate → List Crate → Except TErr (List Crate × List Crate)}
    (Hs : ∀ k v t, dropTrace (stepT k v t) = step k v) :
    ∀ ks un vis tr,
      dropTrace (walkCratesT stepT ks un vis tr) = walkCrates step ks un vis := by
  intro ks
  induction ks with
  | nil => intro un vis tr; rfl
  | cons k ks ih =>
    intro un vis tr
    cases hs : stepT k vis tr with
    | error e =>
      have h2 := Hs k vis tr
      rw [hs] at h2
      simp only [dropTrace] at h2
      simp only [walkCratesT, walkCrates, hs, ← h2, dropTrace]
    | ok p =>
      obtain ⟨bad, v1, t1⟩ := p
      have h2 := Hs k vis tr
      rw [hs] at h2
      simp only [dropTrace] at h2
      simp only [walkCratesT, walkCrates, hs, ← h2]
      exact ih (smerge un bad) v1 t1

theorem walkCratesT_nodup
    (Hs : ∀ k v t un' v' t', stepT k v t = .ok (un', v', t') →
      t.Nodup → (∀ x ∈ t, x ∈ v) → t'.Nodup ∧ ∀ x ∈ t', x ∈ v') :
    ∀ ks un vis tr unF visF trF,
      walkCratesT stepT ks un vis tr = .ok (unF, visF, trF) →
      tr.Nodup → (∀ x ∈ tr, x ∈ vis) → trF.Nodup ∧ ∀ x ∈ trF, x ∈ visF := by
  intro ks
  induction ks with
  | nil =>
    intro un vis tr unF visF trF h hnd hsub
    simp only [walkCratesT, Except.ok.injEq, Prod.mk.injEq] at h
    obtain ⟨rfl, rfl, rfl⟩ := h
    exact ⟨hnd, hsub⟩
  | cons k ks ih =>
    intro un vis tr unF visF trF h hnd hsub
    cases hs : stepT k vis tr with
    | error e =>
      simp only [walkCratesT, hs] at h
      exact Except.noConfusion h
    | ok p =>
      obtain ⟨bad, v1, t1⟩ := p
      simp only [walkCratesT, hs] at h
      obtain ⟨h1, h2⟩ := Hs k vis tr bad v1 t1 hs hnd hsub
      exact ih (smerge un bad) v1 t1 unF visF trF h h1 h2

end TraceLemmas

section CWTLemmas

variable {wl : List Crate} {resolve : Resolve}

theorem cCWT_proj : ∀ fuel (k : Crate) (v t : List Crate),
    dropTrace (checkCrateWhitelistT wl resolve fuel k v t) =
      checkCrateWhitelist wl resolve fuel k v := by
  intro fuel
  induction fuel with
  | zero => intro k v t; rfl
  | succ fuel ih =>
    intro k v t
    simp only [checkCrateWhitelistT, checkCrateWhitelist]
    by_cases hk : k ∈ v
    · simp only [if_pos hk, dropTrace]
    · simp only [if_neg hk]
      cases hfind : findNodeFor resolve k with
      | none => simp only [hfind, dropTrace]
      | some node =>
        simp only [hfind]
        exact walkCratesT_proj (fun a b c => ih a b c) _ _ _ _

theorem cCWT_nodup : ∀ fuel (k : Crate) (v t un' v' t' : List Crate),
    checkCrateWhitelistT wl resolve fuel k v t = .ok (un', v', t') →
    t.Nodup → (∀ x ∈ t, x ∈ v) → t'.Nodup ∧ ∀ x ∈ t', x ∈ v' := by
  intro fuel
  induction fuel with
  | zero =>
    intro k v t un' v' t' h
    exact Except.noConfusion h
  | succ fuel ih =>
    intro k v t un' v' t' h hnd hsub
    simp only [checkCrateWhitelistT] at h
    by_cases hk : k ∈ v
    · simp only [if_pos hk, Except.ok.injEq, Prod.mk.injEq] at h
      obtain ⟨rfl, rfl, rfl⟩ := h
      exact ⟨hnd, hsub⟩
    · simp only [if_neg hk] at h
      cases hfind : findNodeFor resolve k with
      | none =>
        rw [hfind] at h
        exact Except.noConfusion h
      | some node =>
        rw [hfind] at h
        refine walkCratesT_nodup (fun a b c d e f hstep => ih a b c d e f hstep)
          (node.dependencies.map Crate.from_str) _ (sinsert k v) (t ++ [k])
          un' v' t' h ?_ ?_
        · rw [List.nodup_append]
          refine ⟨hnd, List.nodup_singleton k, ?_⟩
          intro x hx heq
          rcases List.mem_singleton.mp heq with rfl
          exact hk (hsub x hx)
        · intro x hx
          rcases List.mem_append.mp hx with hx | hx
          · exact subset_sinsert k v (hsub x hx)
          · rcases List.mem_singleton.mp hx with rfl
            exact mem_sinsert_self x v

end CWTLemmas

/-- C1: the code-level evaluation of the whitelist-membership bug.  The
canonical identity `rustc` produced by `Crate::from_str` is NOT a member of
`WHITELIST` (whose entry is the string `"rustc "` with a trailing space), and
consequently `check_whitelist` inserts both configured roots into the
violation set and raises the bad flag even on a graph where the roots have no
dependencies at all — contradicting the claim that names listed in the
allow-set are members under the traversal's membership check and that the
roots are never reported. -/
theorem c1_whitelist_membership_bug :
    Crate.from_str ("rustc 1.25.0 (path+file:///checkout/src/librustc)".toList) =
      ("rustc".toList) ∧
    ("rustc".toList) ∉ WHITELIST ∧
    ("rustc ".toList) ∈ WHITELIST ∧
    ("rustc_trans".toList) ∉ WHITELIST ∧
    check_whitelist rcRustc false =
      .ok ([("rustc".toList), ("rustc_trans".toList)], true) := by
  refine ⟨by decide, by decide, by decide, by decide, by rfl⟩

/-- C2: for every graph, root list and allow-set such that every reachable
identity has a matching node, `check_whitelist`'s traversal returns normally,
and the returned violation set is exactly the reachable identities minus the
allow-set (in particular it contains no identity unreachable from every
root), strictly sorted in canonical-name order and duplicate-free. -/
theorem c2_violations_exact (wl : List Crate) (resolve : Resolve) (roots : List Crate)
    (hnodes : ∀ x, Reachable resolve roots x → findNodeFor resolve x ≠ none) :
    (∀ e, check_whitelist_core wl resolve roots ≠ .error e) ∧
    ∀ un, check_whitelist_core wl resolve roots = .ok un →
      SortedS un ∧ un.Nodup ∧
        ∀ x, x ∈ un ↔ (Reachable resolve roots x ∧ x ∉ wl) := by
  constructor
  · intro e h
    simp only [check_whitelist_core] at h
    cases hw : walkCrates
        (fun k v => checkCrateWhitelist wl resolve (fuelBound resolve roots) k v)
        roots [] [] with
    | error e' =>
      cases e' with
      | fuelOut => exact run_nofuel wl resolve roots hw
      | crateNotExist => exact run_noexist hnodes hw
    | ok p =>
      obtain ⟨unF, visF⟩ := p
      rw [hw] at h
      exact Except.noConfusion h
  · intro un h
    simp only [check_whitelist_core] at h
    cases hw : walkCrates
        (fun k v => checkCrateWhitelist wl resolve (fuelBound resolve roots) k v)
        roots [] [] with
    | error e =>
      rw [hw] at h
      exact Except.noConfusion h
    | ok p =>
      obtain ⟨unF, visF⟩ := p
      rw [hw] at h
      simp only [Except.ok.injEq] at h
      subst h
      exact ⟨(run_sorted hw).2, (run_sorted hw).2.nodup, run_un_iff hw⟩

theorem c2_violations_exact_witness :
    SortedS [("c".toList)] ∧ [("c".toList)].Nodup ∧
      (("c".toList) ∈ [("c".toList)] ↔
        (Reachable rcAbc [("a".toList)] ("c".toList) ∧ ("c".toList) ∉ wlAb)) := by
  have hnodes : ∀ x, Reachable rcAbc [("a".toList)] x → findNodeFor rcAbc x ≠ none := by
    intro x hx
    rcases reachable_bound hx with h1 | h2
    · rcases List.mem_singleton.mp h1 with rfl
      decide
    · have e : allDepCrates rcAbc = [("b".toList), ("c".toList)] := by decide
      rw [e] at h2
      rcases List.mem_cons.mp h2 with rfl | h2
      · decide
      · rcases List.mem_singleton.mp h2 with rfl
        decide
  obtain ⟨h1, h2, h3⟩ :=
    (c2_violations_exact wlAb rcAbc [("a".toList)] hnodes).2 [("c".toList)] (by rfl)
  exact ⟨h1, h2, h3 ("c".toList)⟩

/-- C3: memoization.  (1) Any invocation of `check_crate_whitelist` on an
identity already in the shared visited set immediately returns the empty set
and an unchanged visited set — uniformly in the graph and allow-set, so no
node lookup or recursion can be involved.  (2) The trace-instrumented
traversal is the same function once the trace is erased.  (3) In a whole
multi-root run the list of identities whose dependency list was expanded has
no duplicates: each identity is expanded at most once, even when it is
reachable from several roots or along diamond paths. -/
theorem c3_memoization (wl : List Crate) (resolve : Resolve) :
    (∀ fuel (k : Crate) (v : List Crate), k ∈ v →
      checkCrateWhitelist wl resolve (fuel + 1) k v = .ok ([], v)) ∧
    (∀ fuel (k : Crate) (v t : List Crate),
      dropTrace (checkCrateWhitelistT wl resolve fuel k v t) =
        checkCrateWhitelist wl resolve fuel k v) ∧
    (∀ roots unF visF trF,
      check_whitelist_coreT wl resolve roots = .ok (unF, visF, trF) →
        trF.Nodup) := by
  refine ⟨?_, fun fuel k v t => cCWT_proj fuel k v t, ?_⟩
  · intro fuel k v hk
    simp [checkCrateWhitelist, hk]
  · intro roots unF visF trF h
    exact (walkCratesT_nodup (fun a b c d e f hstep => cCWT_nodup _ a b c d e f hstep)
      roots [] [] [] unF visF trF h List.nodup_nil
      (fun x hx => absurd hx (List.not_mem_nil x))).1

theorem c3_memoization_witness :
    checkCrateWhitelist [] rcDiamond 5 ("d".toList) [("d".toList)] =
      .ok ([], [("d".toList)]) ∧
    [("a".toList), ("b".toList), ("d".toList), ("c".toList)].Nodup := by
  constructor
  · exact (c3_memoization [] rcDiamond).1 4 ("d".toList) [("d".toList)]
      (List.mem_singleton_self _)
  · exact (c3_memoization [] rcDiamond).2.2 [("a".toList)]
      [("a".toList), ("b".toList), ("c".toList), ("d".toList)]
      [("a".toList), ("b".toList), ("c".toList), ("d".toList)]
      [("a".toList), ("b".toList), ("d".toList), ("c".toList)] (by rfl)

/-- C4: if some identity reachable from the roots has no node whose raw id
starts with its canonical name followed by the separator, the traversal fails
with the `crate does not exist` configuration error — it neither skips the
subtree nor returns a normal result. -/
theorem c4_missing_node_fails (wl : List Crate) (resolve : Resolve) (roots : List Crate)
    (hmiss : ∃ x, Reachable resolve roots x ∧ findNodeFor resolve x = none) :
    check_whitelist_core wl resolve roots = .error .crateNotExist := by
  obtain ⟨x, hx, hnone⟩ := hmiss
  simp only [check_whitelist_core]
  cases hw : walkCrates
      (fun k v => checkCrateWhitelist wl resolve (fuelBound resolve roots) k v)
      roots [] [] with
  | error e =>
    cases e with
    | fuelOut => exact absurd hw (run_nofuel wl resolve roots)
    | crateNotExist => rfl
  | ok p =>
    obtain ⟨unF, visF⟩ := p
    exfalso
    have hxv : x ∈ visF := (run_visF_iff hw x).mpr hx
    obtain ⟨n, hn, _⟩ := walkCrates_closed (nodeClosed resolve)
      (fun a b c d hstep => cCW_mono _ a b c d hstep)
      (fun a b c d hstep => cCW_closed _ a b c d hstep)
      (fun a V V' h1 h2 => nodeClosed_mono h1 h2)
      roots [] [] unF visF hw x hxv (List.not_mem_nil x)
    rw [hnone] at hn
    exact Option.noConfusion hn

theorem c4_missing_node_fails_witness :
    check_whitelist_core [] rcEmpty [("a".toList)] = .error .crateNotExist :=
  c4_missing_node_fails [] rcEmpty [("a".toList)]
    ⟨("a".toList), .root (List.mem_singleton_self _), rfl⟩

/-- C5: on every finite graph — cyclic ones included, since `resolve` here is
arbitrary and nothing assumes acyclicity — the recursive expansion completes
within the canonical fuel `fuelBound`: the run never reports fuel exhaustion,
because the visited-set membership test precedes any expansion of a node's
edges, so at most one expansion can happen per candidate identity. -/
theorem c5_terminates_on_all_graphs (wl : List Crate) (resolve : Resolve)
    (roots : List Crate) :
    check_whitelist_core wl resolve roots ≠ .error .fuelOut := by
  intro h
  simp only [check_whitelist_core] at h
  cases hw : walkCrates
      (fun k v => checkCrateWhitelist wl resolve (fuelBound resolve roots) k v)
      roots [] [] with
  | error e =>
    rw [hw] at h
    simp only [Except.error.injEq] at h
    subst h
    exact run_nofuel wl resolve roots hw
  | ok p =>
    obtain ⟨unF, visF⟩ := p
    rw [hw] at h
    exact Except.noConfusion h

theorem checkGo_true (ds : List VendorDir) : ∀ b, checkGo ds true = some b → b = true := by
  induction ds with
  | nil =>
    intro b h
    simp only [checkGo, Option.some.injEq] at h
    exact h.symm
  | cons d ds ih =>
    intro b h
    simp only [checkGo] at h
    by_cases he : isException d.path
    · rw [if_pos he] at h
      exact ih b h
    · rw [if_neg he] at h
      simp only [if_true] at h
      exact ih b h

/-- C9: the bad flag is monotone and raised only on findings.  `check` never
turns a true flag back to false; and `check_whitelist` returns `bad' = true`
exactly when the accumulated violation set is non-empty or the flag was
already true, leaving the flag untouched when the violation set is empty. -/
theorem c9_bad_flag (dirs : List VendorDir) (resolve : Resolve) (bad : Bool) :
    (∀ b, check dirs true = some b → b = true) ∧
    (∀ un bad', check_whitelist resolve bad = .ok (un, bad') →
      ((bad' = true ↔ (un ≠ [] ∨ bad = true)) ∧ (un = [] → bad' = bad))) := by
  constructor
  · intro b h
    simp only [check] at h
    by_cases hde : dirs.isEmpty
    · rw [if_pos hde] at h
      exact Option.noConfusion h
    · rw [if_neg hde] at h
      exact checkGo_true dirs b h
  · intro un bad' h
    simp only [check_whitelist] at h
    cases hc : check_whitelist_core WHITELIST resolve WHITELIST_CRATES with
    | error e =>
      rw [hc] at h
      exact Except.noConfusion h
    | ok unc =>
      rw [hc] at h
      simp only [Except.ok.injEq, Prod.mk.injEq] at h
      obtain ⟨rfl, rfl⟩ := h
      cases unc with
      | nil => simp
      | cons c cs => simp

theorem c9_bad_flag_witness :
    (true = true) ∧
    ((true = true) ↔
      ([("rustc".toList), ("rustc_trans".toList)] ≠ ([] : List Crate) ∨ false = true)) := by
  refine ⟨(c9_bad_flag dirsBad rcRustc false).1 true (by rfl), ?_⟩
  exact ((c9_bad_flag dirsBad rcRustc false).2
    [("rustc".toList), ("rustc_trans".toList)] true (by rfl)).1

theorem splitOnChar_ne_nil (sep : Char) (s : Str) : splitOnChar sep s ≠ [] := by
  cases s with
  | nil => simp [splitOnChar]
  | cons c cs =>
    simp only [splitOnChar]
    cases splitOnChar sep cs with
    | nil => simp
    | cons h t => split_ifs <;> simp

theorem from_str_takeWhile (s : Str) :
    Crate.from_str s = s.takeWhile (fun c => decide (c ≠ ' ')) := by
  induction s with
  | nil => rfl
  | cons c cs ih =>
    cases h : splitOnChar ' ' cs with
    | nil => exact absurd h (splitOnChar_ne_nil ' ' cs)
    | cons hd tl =>
      have ihd : hd = List.takeWhile (fun c => decide (c ≠ ' ')) cs := by
        have h2 : Crate.from_str cs = hd := by
          simp only [Crate.from_str, h]
        rw [← h2, ih]
      by_cases hc : c = ' '
      · subst hc
        have lhs : Crate.from_str (' ' :: cs) = [] := by
          simp [Crate.from_str, splitOnChar, h]
        rw [lhs, List.takeWhile_cons_of_neg (by simp)]
      · have lhs : Crate.from_str (c :: cs) = c :: hd := by
          simp only [Crate.from_str, splitOnChar, h, if_neg hc]
        rw [lhs, List.takeWhile_cons_of_pos (by simp [hc]), ← ihd]

theorem takeWhile_no_space {s : Str} (h : ' ' ∉ s) :
    s.takeWhile (fun c => decide (c ≠ ' ')) = s := by
  induction s with
  | nil => rfl
  | cons c cs ih =>
    have hc : c ≠ ' ' := fun he => h (he ▸ List.mem_cons_self c cs)
    have hcs : ' ' ∉ cs := fun he => h (List.mem_cons_of_mem c he)
    rw [List.takeWhile_cons_of_pos (by simp [hc]), ih hcs]

theorem takeWhile_first_space {s : Str} : ∀ {i : Nat}, s[i]? = some ' ' →
    (∀ j, j < i → s[j]? ≠ some ' ') →
    s.takeWhile (fun c => decide (c ≠ ' ')) = s.take i := by
  induction s with
  | nil => intro i hi _; simp at hi
  | cons c cs ih =>
    intro i hi hmin
    cases i with
    | zero =>
      rw [List.getElem?_cons_zero, Option.some.injEq] at hi
      subst hi
      rw [List.takeWhile_cons_of_neg (by simp)]
      rfl
    | succ i =>
      have hc : c ≠ ' ' := by
        intro he
        exact hmin 0 (Nat.succ_pos i) (by simp [he])
      rw [List.getElem?_cons_succ] at hi
      have hmin' : ∀ j, j < i → cs[j]? ≠ some ' ' := by
        intro j hj
        have := hmin (j + 1) (by omega)
        rwa [List.getElem?_cons_succ] at this
      rw [List.takeWhile_cons_of_pos (by simp [hc]), List.take_succ_cons, ih hi hmin']

/-- C8: identity parsing is total and lenient.  For every input string,
`Crate::from_str` returns the prefix of the input up to (excluding) the first
space — in particular the whole input when no space occurs, and the empty
identity on the empty input — and being a plain total function it can neither
fail nor panic. -/
theorem c8_from_str_total (s : Str) :
    Crate.from_str s = s.takeWhile (fun c => decide (c ≠ ' ')) ∧
    ((' ' ∉ s) → Crate.from_str s = s) ∧
    (∀ i, s[i]? = some ' ' → (∀ j, j < i → s[j]? ≠ some ' ') →
      Crate.from_str s = s.take i) := by
  refine ⟨from_str_takeWhile s, ?_, ?_⟩
  · intro h
    rw [from_str_takeWhile s]
    exact takeWhile_no_space h
  · intro i hi hmin
    rw [from_str_takeWhile s]
    exact takeWhile_first_space hi hmin

theorem c8_from_str_total_witness :
    Crate.from_str ("ar 0.3.0 (registry+x)".toList) = ("ar".toList) := by
  have h := (c8_from_str_total ("ar 0.3.0 (registry+x)".toList)).2.2 2 (by decide) ?_
  · rw [h]; decide
  · intro j hj
    interval_cases j <;> decide

theorem findQ_none_iff {s : Str} : findQ s = none ↔ '"' ∉ s := by
  induction s with
  | nil => simp [findQ]
  | cons c cs ih =>
    simp only [findQ]
    by_cases hc : c = '"'
    · simp [hc]
    · simp [hc, Option.map_eq_none', ih, Ne.symm hc]

theorem findQ_some {s : Str} : ∀ {f : Nat}, findQ s = some f →
    s[f]? = some '"' ∧ ∀ j, j < f → s[j]? ≠ some '"' := by
  induction s with
  | nil => intro f h; exact Option.noConfusion h
  | cons c cs ih =>
    intro f h
    simp only [findQ] at h
    by_cases hc : c = '"'
    · rw [if_pos hc] at h
      rw [Option.some.injEq] at h
      subst h
      exact ⟨by simp [hc], fun j hj => absurd hj (Nat.not_lt_zero j)⟩
    · rw [if_neg hc] at h
      cases hq : findQ cs with
      | none => rw [hq] at h; exact Option.noConfusion h
      | some f' =>
        rw [hq] at h
        simp only [Option.map_some', Option.some.injEq] at h
        subst h
        obtain ⟨h1, h2⟩ := ih hq
        refine ⟨by simpa using h1, ?_⟩
        intro j hj
        cases j with
        | zero => simp [hc]
        | succ j =>
          rw [List.getElem?_cons_succ]
          exact h2 j (by omega)

theorem lt_length_of_getElem?_some {s : Str} {i : Nat} {a : Char}
    (h : s[i]? = some a) : i < s.length := by
  by_contra hc
  rw [List.getElem?_eq_none (by omega)] at h
  exact Option.noConfusion h

theorem rfindQ_some {s : Str} {l : Nat} (h : rfindQ s = some l) :
    s[l]? = some '"' ∧ ∀ j, l < j → s[j]? ≠ some '"' := by
  simp only [rfindQ] at h
  cases hq : findQ s.reverse with
  | none => rw [hq] at h; exact Option.noConfusion h
  | some r =>
    rw [hq] at h
    simp only [Option.map_some', Option.some.injEq] at h
    subst h
    obtain ⟨h1, h2⟩ := findQ_some hq
    have hr : r < s.length := by
      have := lt_length_of_getElem?_some h1
      rwa [List.length_reverse] at this
    have e : s.reverse[r]? = s[s.length - 1 - r]? := List.getElem?_reverse hr
    have hget : s[s.length - 1 - r]? = some '"' := by rw [← e]; exact h1
    refine ⟨hget, ?_⟩
    intro j hj hcontra
    have hjlen : j < s.length := lt_length_of_getElem?_some hcontra
    have e2 : s.reverse[s.length - 1 - j]? = s[s.length - 1 - (s.length - 1 - j)]? :=
      List.getElem?_reverse (by omega)
    have harith : s.length - 1 - (s.length - 1 - j) = j := by omega
    rw [harith] at e2
    exact h2 (s.length - 1 - j) (by omega) (e2.trans hcontra)

/-- C6: counterexample to the claim as stated.  On a line containing exactly
one double-quote, `first_quote` and `last_quote` are both `Some` of the same
index, so the code takes the slice `&line[f + 1..l]` with `f + 1 > l`, which
is a Rust slice-bounds panic (modelled `none`) — `extract_license` is not
total and does not return the `bad-license-parse` sentinel there. -/
theorem c6_extract_license_cex :
    extract_license ("license = \"MIT".toList) = none ∧
    extract_license ("license = \"MIT".toList) ≠ some ("bad-license-parse".toList) := by
  exact ⟨by decide, by decide⟩

/-- C6 (amended): `extract_license` returns the `bad-license-parse` sentinel
exactly on lines with no double-quote at all; on lines with two distinct
quote positions it returns the substring strictly between the first and the
last double-quote (`findQ`/`rfindQ` are proved to compute exactly those
positions); and on lines whose first and last quote coincide — a single
unmatched quote — it panics (`none`) instead of returning the sentinel. -/
theorem c6_extract_license_amended (ln : Str) :
    (('"' ∉ ln) → extract_license ln = some ("bad-license-parse".toList)) ∧
    (∀ f l, findQ ln = some f → rfindQ ln = some l → f < l →
      extract_license ln = some ((ln.take l).drop (f + 1))) ∧
    (∀ f, findQ ln = some f → rfindQ ln = some f →
      extract_license ln = none) ∧
    (∀ f, findQ ln = some f →
      ln[f]? = some '"' ∧ ∀ j, j < f → ln[j]? ≠ some '"') ∧
    (∀ l, rfindQ ln = some l →
      ln[l]? = some '"' ∧ ∀ j, l < j → ln[j]? ≠ some '"') := by
  refine ⟨?_, ?_, ?_, fun f hf => findQ_some hf, fun l hl => rfindQ_some hl⟩
  · intro hq
    have hn : findQ ln = none := findQ_none_iff.mpr hq
    simp [extract_license, hn]
  · intro f l hf hl hfl
    have hlen : l ≤ ln.length := le_of_lt (lt_length_of_getElem?_some (rfindQ_some hl).1)
    simp only [extract_license, hf, hl]
    rw [if_pos ⟨by omega, hlen⟩]
  · intro f hf hl
    simp only [extract_license, hf, hl]
    rw [if_neg (by omega)]

theorem c6_extract_license_amended_witness :
    extract_license ("license = \"MIT\"".toList) = some ("MIT".toList) := by
  have h := (c6_extract_license_amended (("license = \"MIT\"".toList))).2.1 10 14
    (by decide) (by decide) (by decide)
  rw [h]
  decide

theorem licenseLoop_spec (path : Str) : ∀ lines : List Str,
    (licenseLoop path lines = some (true, []) ↔
      ∃ ln, lines.find? (fun l => ("license".toList).isPrefixOf l) = some ln ∧
        ∃ v, extract_license ln = some v ∧ v ∈ LICENSES) ∧
    (∀ ln v, lines.find? (fun l => ("license".toList).isPrefixOf l) = some ln →
      extract_license ln = some v → v ∉ LICENSES →
      licenseLoop path lines =
        some (false, [("invalid license ".toList) ++ v ++ (" in ".toList) ++ path])) ∧
    (lines.find? (fun l => ("license".toList).isPrefixOf l) = none →
      licenseLoop path lines = some (false, [("no license in ".toList) ++ path])) := by
  intro lines
  induction lines with
  | nil =>
    refine ⟨?_, ?_, ?_⟩
    · simp [licenseLoop]
    · intro ln v h
      exact Option.noConfusion h
    · intro _
      rfl
  | cons ln0 rest ih =>
    by_cases hp : ("license".toList).isPrefixOf ln0
    · have hfind : (ln0 :: rest).find? (fun l => ("license".toList).isPrefixOf l) = some ln0 :=
        List.find?_cons_of_pos rest hp
      cases hex : extract_license ln0 with
      | none =>
        have hloop : licenseLoop path (ln0 :: rest) = none := by
          simp only [licenseLoop, if_pos hp, hex]
        refine ⟨?_, ?_, ?_⟩
        · rw [hloop]
          constructor
          · intro h
            exact Option.noConfusion h
          · rintro ⟨ln', hln', v, hv, _⟩
            rw [hfind, Option.some.injEq] at hln'
            subst hln'
            rw [hex] at hv
            exact Option.noConfusion hv
        · intro ln' v hln' hv _
          rw [hfind, Option.some.injEq] at hln'
          subst hln'
          rw [hex] at hv
          exact Option.noConfusion hv
        · intro hnone
          rw [hfind] at hnone
          exact Option.noConfusion hnone
      | some v0 =>
        by_cases hv0 : v0 ∈ LICENSES
        · have hloop : licenseLoop path (ln0 :: rest) = some (true, []) := by
            simp only [licenseLoop, if_pos hp, hex, if_pos hv0]
          refine ⟨?_, ?_, ?_⟩
          · rw [hloop]
            constructor
            · intro _
              exact ⟨ln0, hfind, v0, hex, hv0⟩
            · intro _
              rfl
          · intro ln' v hln' hv hvn
            rw [hfind, Option.some.injEq] at hln'
            subst hln'
            rw [hex, Option.some.injEq] at hv
            subst hv
            exact absurd hv0 hvn
          · intro hnone
            rw [hfind] at hnone
            exact Option.noConfusion hnone
        · have hloop : licenseLoop path (ln0 :: rest) =
              some (false, [("invalid license ".toList) ++ v0 ++ (" in ".toList) ++ path]) := by
            simp only [licenseLoop, if_pos hp, hex, if_neg hv0]
          refine ⟨?_, ?_, ?_⟩
          · rw [hloop]
            constructor
            · intro h
              simp at h
            · rintro ⟨ln', hln', v, hv, hvl⟩
              rw [hfind, Option.some.injEq] at hln'
              subst hln'
              rw [hex, Option.some.injEq] at hv
              subst hv
              exact absurd hvl hv0
          · intro ln' v hln' hv _
            rw [hfind, Option.some.injEq] at hln'
            subst hln'
            rw [hex, Option.some.injEq] at hv
            subst hv
            exact hloop
          · intro hnone
            rw [hfind] at hnone
            exact Option.noConfusion hnone
    · have hloop : licenseLoop path (ln0 :: rest) = licenseLoop path rest := by
        simp only [licenseLoop, if_neg hp]
      have hfind : (ln0 :: rest).find? (fun l => ("license".toList).isPrefixOf l) =
          rest.find? (fun l => ("license".toList).isPrefixOf l) :=
        List.find?_cons_of_neg rest hp
      rw [hloop, hfind]
      exact ih

/-- C7: for every existing, readable manifest, `check_license` returns `true`
(with no diagnostic) exactly when the contents have a line beginning with
`license` whose first such line's extracted value is one of the fixed
`LICENSES` entries; when the first such line's value extracts to something
not allow-listed it returns `false` with the `invalid license` diagnostic
naming that value; and when no `license` line exists it returns `false` with
the `no license` diagnostic. -/
theorem c7_check_license (path : Str) (contents : Str) :
    (check_license path (some contents) = some (true, []) ↔
      ∃ ln, (rustLines contents).find? (fun l => ("license".toList).isPrefixOf l) = some ln ∧
        ∃ v, extract_license ln = some v ∧ v ∈ LICENSES) ∧
    (∀ ln v,
      (rustLines contents).find? (fun l => ("license".toList).isPrefixOf l) = some ln →
      extract_license ln = some v → v ∉ LICENSES →
      check_license path (some contents) =
        some (false, [("invalid license ".toList) ++ v ++ (" in ".toList) ++ path])) ∧
    ((rustLines contents).find? (fun l => ("license".toList).isPrefixOf l) = none →
      check_license path (some contents) =
        some (false, [("no license in ".toList) ++ path])) :=
  licenseLoop_spec path (rustLines contents)

theorem c7_check_license_witness :
    check_license ("p".toList) (some ("license = \"GPL-2.0\"".toList)) =
      some (false, [("invalid license GPL-2.0 in p".toList)]) ∧
    check_license ("p".toList) (some ("license = \"MIT\"".toList)) = some (true, []) ∧
    check_license ("p".toList) (some ("name = \"x\"".toList)) =
      some (false, [("no license in p".toList)]) := by
  refine ⟨?_, ?_, ?_⟩
  · have h := (c7_check_license ("p".toList) ("license = \"GPL-2.0\"".toList)).2.1
      ("license = \"GPL-2.0\"".toList) ("GPL-2.0".toList) (by decide) (by decide) (by decide)
    rw [h]
    decide
  · exact (c7_check_license ("p".toList) ("license = \"MIT\"".toList)).1.mpr
      ⟨("license = \"MIT\"".toList), by decide, ("MIT".toList), by decide, by decide⟩
  · have h := (c7_check_license ("p".toList) ("name = \"x\"".toList)).2.2 (by decide)
    rw [h]
    decide

theorem containsSub_iff {hay needle : Str} :
    containsSub hay needle = true ↔ needle <:+: hay := by
  induction hay with
  | nil =>
    simp only [containsSub, List.isEmpty_iff, List.infix_nil]
  | cons c cs ih =>
    simp only [containsSub, Bool.or_eq_true, ih, List.isPrefixOf_iff_prefix]
    exact (List.infix_cons_iff).symm

/-- C10: exception matching in `check` is by substring.  A vendored directory
is skipped — its `Cargo.toml` is never consulted — exactly when its path
contains `src/vendor/` immediately followed by some `EXCEPTIONS` entry as a
substring; consequently a directory whose name merely extends an exception
name, such as `src/vendor/openssl-sys` under the exception `openssl`, is also
exempted from the license check. -/
theorem c10_exception_substring :
    (∀ path : Str, isException path = true ↔
      ∃ e ∈ EXCEPTIONS, (("src/vendor/".toList) ++ e) <:+: path) ∧
    (∀ (d : VendorDir) (ds : List VendorDir) (bad : Bool), isException d.path = true →
      checkGo (d :: ds) bad = checkGo ds bad) ∧
    isException ("/checkout/src/vendor/openssl-sys".toList) = true := by
  refine ⟨?_, ?_, by decide⟩
  · intro path
    simp only [isException, List.any_eq_true, containsSub_iff]
  · intro d ds bad he
    simp only [checkGo, if_pos he]

theorem c10_exception_substring_witness :
    checkGo [⟨("/checkout/src/vendor/openssl-sys".toList), none⟩] false = some false := by
  rw [c10_exception_substring.2.1 ⟨("/checkout/src/vendor/openssl-sys".toList), none⟩ [] false
    (by decide)]
  rfl
